import Mathlib

/-!
Shallow embedding of `sampnn/message.py` (the message-passing and pooling core
of the composition graph network) over the real numbers, together with proofs
about the claims of the specification.

Feature matrices are modelled as functions `Fin R → Fin d → ℝ` (R rows of
width d).  The `torch_scatter` segment primitives used by the source are
modelled as follows:

* `scatter_add(src, index, dim=0)` produces `index.max() + 1` rows when no
  output size is supplied; rows of segments with no members stay at the zero
  fill value.  This is `segSum` / `attnOutSize`.
* `scatter_max(src, index, dim=0)[0]`, gathered back through `[index]`, is
  only ever read at segments that have at least one member; on those it is
  the segment maximum (`segMax`; the fill value of an empty segment is never
  gathered back by the source, so it is modelled as a junk value 0).
* `scatter_mul` is the per-segment product.

Trainable modules carry their parameters as plain fields; the gate networks
of the attention poolers are arbitrary functions from a feature row to a
scalar logit, exactly the interface the source assumes of `gate_nn`.
`nn.BatchNorm1d` is modelled in both of its modes: batch statistics in
training mode, running statistics in evaluation mode (eps = 1e-5, biased
variance, as in `torch`).
-/

namespace Sampnn

open Finset

/-- Logistic sigmoid, `torch.nn.Sigmoid`. -/
noncomputable def sigmoid (z : ℝ) : ℝ := 1 / (1 + Real.exp (-z))

/-- Exponential linear unit with `alpha = 1`, `torch.nn.ELU`. -/
noncomputable def elu (z : ℝ) : ℝ := if 0 < z then z else Real.exp z - 1

/-- An affine layer, `torch.nn.Linear(din, dout)`. -/
structure Linear (din dout : ℕ) where
  weight : Fin dout → Fin din → ℝ
  bias : Fin dout → ℝ

/-- Applying a `Linear` layer to one input row. -/
noncomputable def Linear.apply {din dout : ℕ} (l : Linear din dout)
    (v : Fin din → ℝ) (k : Fin dout) : ℝ :=
  (∑ i, l.weight k i * v i) + l.bias k

/-- Mean of one feature channel across the batch dimension. -/
noncomputable def batchMean {M d : ℕ} (x : Fin M → Fin d → ℝ) (k : Fin d) : ℝ :=
  (∑ j, x j k) / M

/-- Biased variance of one feature channel across the batch dimension. -/
noncomputable def batchVar {M d : ℕ} (x : Fin M → Fin d → ℝ) (k : Fin d) : ℝ :=
  (∑ j, (x j k - batchMean x k) ^ 2) / M

/-- `torch.nn.BatchNorm1d(d)`: learnable per-channel affine parameters and
running statistics for evaluation mode. -/
structure BatchNorm1d (d : ℕ) where
  weight : Fin d → ℝ
  bias : Fin d → ℝ
  running_mean : Fin d → ℝ
  running_var : Fin d → ℝ

/-- `BatchNorm1d` forward: batch statistics when `training`, running
statistics otherwise; `eps = 1e-5`. -/
noncomputable def BatchNorm1d.apply {d M : ℕ} (bn : BatchNorm1d d)
    (training : Bool) (x : Fin M → Fin d → ℝ) (j : Fin M) (k : Fin d) : ℝ :=
  match training with
  | true =>
      bn.weight k * ((x j k - batchMean x k) / Real.sqrt (batchVar x k + 1e-5))
        + bn.bias k
  | false =>
      bn.weight k * ((x j k - bn.running_mean k) / Real.sqrt (bn.running_var k + 1e-5))
        + bn.bias k

/-- The rows that the scatter index assigns to segment `s`. -/
def segMembers {R : ℕ} (index : Fin R → ℕ) (s : ℕ) : Finset (Fin R) :=
  univ.filter (fun r => index r = s)

/-- One row of `scatter_max(g, index, dim=0)[0]`: the maximum of the segment
when it has members.  The source only gathers this value back at member
segments, so the value of an empty segment is modelled as a junk 0. -/
noncomputable def segMax {R : ℕ} (g : Fin R → ℝ) (index : Fin R → ℕ) (s : ℕ) : ℝ :=
  if h : (segMembers index s).Nonempty then (segMembers index s).sup' h g else 0

/-- One row of `scatter_add(g, index, dim=0)`. -/
noncomputable def segSum {R : ℕ} (g : Fin R → ℝ) (index : Fin R → ℕ) (s : ℕ) : ℝ :=
  ∑ r ∈ segMembers index s, g r

/-- The weighted softmax attention pooling layer; its state is the gate
network, mapping one feature row to one scalar logit. -/
structure GlobalAttention (d : ℕ) where
  gate_nn : (Fin d → ℝ) → ℝ

/-- Line `gate = self.gate_nn(x).view(-1, 1)`: the raw gate logit of row `r`. -/
noncomputable def gateLogit {R d : ℕ} (gate_nn : (Fin d → ℝ) → ℝ)
    (x : Fin R → Fin d → ℝ) (r : Fin R) : ℝ :=
  gate_nn (x r)

/-- Line `gate = gate - scatter_max(gate, index, dim=0)[0][index]`. -/
noncomputable def stableLogit {R d : ℕ} (gate_nn : (Fin d → ℝ) → ℝ)
    (x : Fin R → Fin d → ℝ) (index : Fin R → ℕ) (r : Fin R) : ℝ :=
  gateLogit gate_nn x r - segMax (gateLogit gate_nn x) index (index r)

/-- Line `gate = weights * gate.exp()`. -/
noncomputable def unnorm {R d : ℕ} (gate_nn : (Fin d → ℝ) → ℝ)
    (x : Fin R → Fin d → ℝ) (index : Fin R → ℕ) (weights : Fin R → ℝ)
    (r : Fin R) : ℝ :=
  weights r * Real.exp (stableLogit gate_nn x index r)

/-- Line `gate = gate / (scatter_add(gate, index, dim=0)[index] + 1e-13)`:
the attention coefficient of row `r`. -/
noncomputable def coeff {R d : ℕ} (gate_nn : (Fin d → ℝ) → ℝ)
    (x : Fin R → Fin d → ℝ) (index : Fin R → ℕ) (weights : Fin R → ℝ)
    (r : Fin R) : ℝ :=
  unnorm gate_nn x index weights r /
    (segSum (unnorm gate_nn x index weights) index (index r) + 1e-13)

/-- Line `out = scatter_add(gate * x, index, dim=0)`: output row `s`,
feature `k`. -/
noncomputable def attnOut {R d : ℕ} (gate_nn : (Fin d → ℝ) → ℝ)
    (x : Fin R → Fin d → ℝ) (index : Fin R → ℕ) (weights : Fin R → ℝ)
    (s : ℕ) (k : Fin d) : ℝ :=
  ∑ r ∈ segMembers index s, coeff gate_nn x index weights r * x r k

/-- Number of rows `scatter_add` produces when no output size is supplied:
one plus the largest index value that occurs (and no rows at all for an
empty input, on which the source would fail). -/
def attnOutSize {R : ℕ} (index : Fin R → ℕ) : ℕ :=
  if R = 0 then 0 else (univ.sup index) + 1

/-- `GlobalAttention.forward`: the list of pooled output rows. -/
noncomputable def GlobalAttention.forward {R d : ℕ} (A : GlobalAttention d)
    (x : Fin R → Fin d → ℝ) (index : Fin R → ℕ) (weights : Fin R → ℝ) :
    List (Fin d → ℝ) :=
  (List.range (attnOutSize index)).map
    (fun s k => attnOut A.gate_nn x index weights s k)

/-- The attention coefficient exactly as the claim words it:
`weights[r] * exp(g[r] - segment max)` divided by the segment's sum of the
same quantities plus `1e-13`, where the segment max is taken over the rows
sharing `index r`. -/
noncomputable def coeffSpec {R d : ℕ} (gate_nn : (Fin d → ℝ) → ℝ)
    (x : Fin R → Fin d → ℝ) (index : Fin R → ℕ) (weights : Fin R → ℝ)
    (r : Fin R) : ℝ :=
  weights r * Real.exp (gate_nn (x r) - segMax (fun r2 => gate_nn (x r2)) index (index r)) /
    ((∑ r2 ∈ segMembers index (index r),
        weights r2 * Real.exp (gate_nn (x r2) - segMax (fun r3 => gate_nn (x r3)) index (index r)))
      + 1e-13)

/-- `WeightedMeanPooling.forward` row `s`, feature `k`: the source computes
`scatter_mul(weights * x) / scatter_mul(weights)` — per-segment products,
despite its docstring calling it mean pooling. -/
noncomputable def WeightedMeanPooling.forward {R d : ℕ}
    (x : Fin R → Fin d → ℝ) (index : Fin R → ℕ) (weights : Fin R → ℝ)
    (s : ℕ) (k : Fin d) : ℝ :=
  (∏ r ∈ segMembers index s, weights r * x r k) /
    ∏ r ∈ segMembers index s, weights r

/-- One message-passing layer: two gated transforms and an attention pooler. -/
structure MessageLayer (d nd : ℕ) where
  filter_msg : Linear (2 * d + nd) d
  filter_bn : BatchNorm1d d
  core_msg : Linear (2 * d + nd) d
  core_bn : BatchNorm1d d
  pooling : GlobalAttention d

/-- Concatenation of a self-feature row, a neighbour-feature row and a bond
feature row (`torch.cat([...], dim=1)` on one row). -/
noncomputable def concat3 {d nd : ℕ} (a b : Fin d → ℝ) (c : Fin nd → ℝ)
    (i : Fin (2 * d + nd)) : ℝ :=
  if h : (i : ℕ) < d then a ⟨i, h⟩
  else if h2 : (i : ℕ) < 2 * d then b ⟨(i : ℕ) - d, by omega⟩
  else c ⟨(i : ℕ) - 2 * d, by have := i.isLt; omega⟩

/-- Line `total_fea = torch.cat([atom_self_fea, atom_nbr_fea, bond_nbr_fea], dim=1)`,
with the gathers `atom_in_fea[self_fea_idx]` and `atom_in_fea[nbr_fea_idx]`
inlined. -/
noncomputable def totalFea {N M d nd : ℕ} (atom_in_fea : Fin N → Fin d → ℝ)
    (bond_nbr_fea : Fin M → Fin nd → ℝ) (self_fea_idx nbr_fea_idx : Fin M → Fin N)
    (j : Fin M) : Fin (2 * d + nd) → ℝ :=
  concat3 (atom_in_fea (self_fea_idx j)) (atom_in_fea (nbr_fea_idx j)) (bond_nbr_fea j)

/-- Per-bond message: `sigmoid(bn(linear(total)))` elementwise times
`elu(bn(linear(total)))` (filter times core). -/
noncomputable def MessageLayer.message {N M d nd : ℕ} (L : MessageLayer d nd)
    (training : Bool) (atom_in_fea : Fin N → Fin d → ℝ)
    (bond_nbr_fea : Fin M → Fin nd → ℝ) (self_fea_idx nbr_fea_idx : Fin M → Fin N)
    (j : Fin M) (k : Fin d) : ℝ :=
  sigmoid (L.filter_bn.apply training
      (fun j2 => L.filter_msg.apply (totalFea atom_in_fea bond_nbr_fea self_fea_idx nbr_fea_idx j2)) j k)
    * elu (L.core_bn.apply training
      (fun j2 => L.core_msg.apply (totalFea atom_in_fea bond_nbr_fea self_fea_idx nbr_fea_idx j2)) j k)

/-- `MessageLayer.forward`: pool the per-bond messages back to atoms with the
layer's attention pooler, using `self_fea_idx` as the segment index and the
gathered `atom_weights[nbr_fea_idx]` as the weights.  Row `s` of the scatter
output is the value at segment id `s`. -/
noncomputable def MessageLayer.forward {N M d nd : ℕ} (L : MessageLayer d nd)
    (training : Bool) (atom_weights : Fin N → ℝ) (atom_in_fea : Fin N → Fin d → ℝ)
    (bond_nbr_fea : Fin M → Fin nd → ℝ) (self_fea_idx nbr_fea_idx : Fin M → Fin N) :
    ℕ → Fin d → ℝ :=
  attnOut L.pooling.gate_nn
    (L.message training atom_in_fea bond_nbr_fea self_fea_idx nbr_fea_idx)
    (fun j => (self_fea_idx j : ℕ)) (fun j => atom_weights (nbr_fea_idx j))

/-- Number of rows the pooling in `MessageLayer.forward` produces: one plus
the largest self index that occurs among the bonds. -/
def msgOutSize {N M : ℕ} (self_fea_idx : Fin M → Fin N) : ℕ :=
  attnOutSize (fun j => (self_fea_idx j : ℕ))

/-- The observable outcome of a Python attribute access that may not exist. -/
inductive PyErr
  | attrError
  deriving DecidableEq

/-- `CompositionNet`: embedding, message-passing layers, crystal pooler and
the optionally attached output head.  `__init__` runs
`if output_nn: self.output_nn = output_nn`, so the attribute exists exactly
when a head was supplied; the field records that. -/
structure CompositionNet (din d nd dout : ℕ) where
  embedding : Linear din d
  graphs : List (MessageLayer d nd)
  pooling : GlobalAttention d
  output_nn : Option ((Fin d → ℝ) → Fin dout → ℝ)

/-- One round of `for graph_func in self.graphs`: apply a message layer and
read the scatter output back as the new per-atom feature matrix. -/
noncomputable def graphStep {N M d nd : ℕ} (training : Bool)
    (atom_weights : Fin N → ℝ) (nbr_fea : Fin M → Fin nd → ℝ)
    (self_fea_idx nbr_fea_idx : Fin M → Fin N)
    (fea : Fin N → Fin d → ℝ) (L : MessageLayer d nd) : Fin N → Fin d → ℝ :=
  fun i => L.forward training atom_weights fea nbr_fea self_fea_idx nbr_fea_idx (i : ℕ)

/-- The crystal-level feature rows: embed, run every graph layer, then pool
atoms to crystals with the net's own attention pooler. -/
noncomputable def CompositionNet.crysFea {din d nd dout N M : ℕ}
    (net : CompositionNet din d nd dout) (training : Bool)
    (atom_weights : Fin N → ℝ) (orig_atom_fea : Fin N → Fin din → ℝ)
    (nbr_fea : Fin M → Fin nd → ℝ) (self_fea_idx nbr_fea_idx : Fin M → Fin N)
    (crystal_atom_idx : Fin N → ℕ) : ℕ → Fin d → ℝ :=
  attnOut net.pooling.gate_nn
    (net.graphs.foldl (graphStep training atom_weights nbr_fea self_fea_idx nbr_fea_idx)
      (fun i => net.embedding.apply (orig_atom_fea i)))
    crystal_atom_idx atom_weights

/-- `CompositionNet.forward`.  The final `if self.output_nn:` reads an
attribute that `__init__` only assigned when a head was supplied, so a net
constructed with `output_nn=None` raises `AttributeError` there (modelled as
`Except.error`); with a head the crystal rows are transformed row by row. -/
noncomputable def CompositionNet.forward {din d nd dout N M : ℕ}
    (net : CompositionNet din d nd dout) (training : Bool)
    (atom_weights : Fin N → ℝ) (orig_atom_fea : Fin N → Fin din → ℝ)
    (nbr_fea : Fin M → Fin nd → ℝ) (self_fea_idx nbr_fea_idx : Fin M → Fin N)
    (crystal_atom_idx : Fin N → ℕ) : Except PyErr (ℕ → Fin dout → ℝ) :=
  match net.output_nn with
  | none => Except.error PyErr.attrError
  | some f => Except.ok (fun s =>
      f (net.crysFea training atom_weights orig_atom_fea nbr_fea
          self_fea_idx nbr_fea_idx crystal_atom_idx s))

/-- An affine layer with all parameters zero. -/
noncomputable def zeroLinear (din dout : ℕ) : Linear din dout :=
  ⟨fun _ _ => 0, fun _ => 0⟩

/-- A batch-norm layer with identity affine parameters and unit running
statistics. -/
noncomputable def idBatchNorm (d : ℕ) : BatchNorm1d d :=
  ⟨fun _ => 1, fun _ => 0, fun _ => 0, fun _ => 1⟩

/-- A message layer with all parameters zero and a constant-zero gate. -/
noncomputable def trivialLayer (d nd : ℕ) : MessageLayer d nd :=
  ⟨zeroLinear _ _, idBatchNorm _, zeroLinear _ _, idBatchNorm _, ⟨fun _ => 0⟩⟩

/-- Identity embedding on one feature channel. -/
noncomputable def cexEmbedding : Linear 1 1 := ⟨fun _ _ => 1, fun _ => 0⟩

/-- A core transform that reads off the self-atom feature (coordinate 0 of
the concatenated row). -/
noncomputable def cexCoreLinear : Linear 3 1 :=
  ⟨fun _ i => if (i : ℕ) = 0 then 1 else 0, fun _ => 0⟩

/-- A message layer whose filter path is constant and whose core path is the
self-atom feature, with identity batch-norm parameters and zero gate. -/
noncomputable def cexLayer : MessageLayer 1 1 :=
  ⟨zeroLinear 3 1, idBatchNorm 1, cexCoreLinear, idBatchNorm 1, ⟨fun _ => 0⟩⟩

/-- A one-layer composition net with identity embedding and identity output
head. -/
noncomputable def cexNet : CompositionNet 1 1 1 1 :=
  ⟨cexEmbedding, [cexLayer], ⟨fun _ => 0⟩, some (fun row => row)⟩

/-- Two atoms, one self-loop bond each. -/
def cexSelf : Fin 2 → Fin 2 := fun j => j

/-- Neighbour indices of the self-loop bonds. -/
def cexNbr : Fin 2 → Fin 2 := fun j => j

/-- Atom 0 belongs to crystal 0, atom 1 to crystal 1. -/
def cexCrys : Fin 2 → ℕ := fun i => (i : ℕ)

/-- Baseline per-atom input features: everything zero. -/
noncomputable def cexOrigA : Fin 2 → Fin 1 → ℝ := fun _ _ => 0

/-- Perturbed features: only crystal 1's atom (atom 1) changes, to 1. -/
noncomputable def cexOrigB : Fin 2 → Fin 1 → ℝ := fun i _ => if (i : ℕ) = 0 then 0 else 1

/-- Unit atom weights for the two-atom batch. -/
noncomputable def cexW : Fin 2 → ℝ := fun _ => 1

/-- Zero bond features for the two-bond batch. -/
noncomputable def cexBond : Fin 2 → Fin 1 → ℝ := fun _ _ => 0

/-- One-row feature matrix with value 2, used in concrete instances. -/
noncomputable def oneRowX : Fin 1 → Fin 1 → ℝ := fun _ _ => 2

/-- The single row lies in segment 0. -/
def zeroIdx1 : Fin 1 → ℕ := fun _ => 0

/-- The single row lies in segment 1, so segment 0 is empty. -/
def oneIdx1 : Fin 1 → ℕ := fun _ => 1

/-- Unit weight on one row. -/
noncomputable def onesW1 : Fin 1 → ℝ := fun _ => 1

/-- Zero weight on one row. -/
noncomputable def zerosW1 : Fin 1 → ℝ := fun _ => 0

/-- Constant-zero gate network on width-1 rows. -/
noncomputable def gateZero : (Fin 1 → ℝ) → ℝ := fun _ => 0

/-- Constant-one gate network on width-1 rows. -/
noncomputable def gateOne : (Fin 1 → ℝ) → ℝ := fun _ => 1

/-- Two rows with values 2 and 3. -/
noncomputable def twoRowX : Fin 2 → Fin 1 → ℝ := fun r _ => if (r : ℕ) = 0 then 2 else 3

/-- Both rows lie in segment 0. -/
def zeroIdx2 : Fin 2 → ℕ := fun _ => 0

/-- Unit weights on two rows. -/
noncomputable def onesW2 : Fin 2 → ℝ := fun _ => 1

/-- The single bond of a one-atom batch, owned by the single atom. -/
def witSelf1 : Fin 1 → Fin 1 := fun _ => 0

/-- Zero bond features for the one-bond batch. -/
noncomputable def witBond1 : Fin 1 → Fin 1 → ℝ := fun _ _ => 0

lemma mem_segMembers {R : ℕ} {index : Fin R → ℕ} {s : ℕ} {r : Fin R} :
    r ∈ segMembers index s ↔ index r = s := by
  simp [segMembers]

lemma self_mem_segMembers {R : ℕ} (index : Fin R → ℕ) (r : Fin R) :
    r ∈ segMembers index (index r) :=
  mem_segMembers.mpr rfl

lemma segMembers_eq_empty {R : ℕ} {index : Fin R → ℕ} {s : ℕ}
    (h : ∀ r, index r ≠ s) : segMembers index s = ∅ := by
  ext r
  simp [segMembers, h r]

lemma segMax_of_nonempty {R : ℕ} (g : Fin R → ℝ) (index : Fin R → ℕ) (s : ℕ)
    (h : (segMembers index s).Nonempty) :
    segMax g index s = (segMembers index s).sup' h g :=
  dif_pos h

lemma segMax_congr_on {R : ℕ} (gA gB : Fin R → ℝ) (index : Fin R → ℕ) (s : ℕ)
    (h : ∀ r ∈ segMembers index s, gA r = gB r) :
    segMax gA index s = segMax gB index s := by
  unfold segMax
  by_cases hne : (segMembers index s).Nonempty
  · rw [dif_pos hne, dif_pos hne]
    exact Finset.sup'_congr hne rfl h
  · rw [dif_neg hne, dif_neg hne]

lemma sup'_add_const {α : Type} (s : Finset α) (H : s.Nonempty) (f : α → ℝ) (c : ℝ) :
    s.sup' H (fun a => f a + c) = s.sup' H f + c := by
  apply le_antisymm
  · exact Finset.sup'_le H _ (fun a ha => add_le_add_right (Finset.le_sup' f ha) c)
  · have h1 : s.sup' H f ≤ s.sup' H (fun a => f a + c) - c :=
      Finset.sup'_le H f
        (fun a ha => le_sub_iff_add_le.mpr (Finset.le_sup' (fun a => f a + c) ha))
    linarith

lemma segMax_shift {R : ℕ} (gA gB : Fin R → ℝ) (index : Fin R → ℕ) (s : ℕ) (c : ℝ)
    (h : ∀ r ∈ segMembers index s, gB r = gA r + c)
    (hne : (segMembers index s).Nonempty) :
    segMax gB index s = segMax gA index s + c := by
  rw [segMax_of_nonempty gB index s hne, segMax_of_nonempty gA index s hne]
  exact (Finset.sup'_congr hne rfl h).trans (sup'_add_const _ hne gA c)

lemma coeff_eq_coeffSpec {R d : ℕ} (gate_nn : (Fin d → ℝ) → ℝ)
    (x : Fin R → Fin d → ℝ) (index : Fin R → ℕ) (weights : Fin R → ℝ) (r : Fin R) :
    coeff gate_nn x index weights r = coeffSpec gate_nn x index weights r := by
  have hden : segSum (unnorm gate_nn x index weights) index (index r)
      = ∑ r2 ∈ segMembers index (index r),
          weights r2 *
            Real.exp (gate_nn (x r2) - segMax (fun r3 => gate_nn (x r3)) index (index r)) := by
    refine Finset.sum_congr rfl (fun r2 h2 => ?_)
    have h3 : index r2 = index r := mem_segMembers.mp h2
    simp only [unnorm, stableLogit, gateLogit, h3]
    rfl
  calc coeff gate_nn x index weights r
      = unnorm gate_nn x index weights r /
          (segSum (unnorm gate_nn x index weights) index (index r) + 1e-13) := rfl
    _ = coeffSpec gate_nn x index weights r := by
        rw [hden]
        rfl

lemma attnOut_eq_zero_of_empty {R d : ℕ} (gate_nn : (Fin d → ℝ) → ℝ)
    (x : Fin R → Fin d → ℝ) (index : Fin R → ℕ) (weights : Fin R → ℝ)
    (s : ℕ) (k : Fin d) (h : ∀ r, index r ≠ s) :
    attnOut gate_nn x index weights s k = 0 := by
  rw [attnOut, segMembers_eq_empty h, Finset.sum_empty]

lemma attnOut_eq_zero_of_rows_zero {R d : ℕ} (gate_nn : (Fin d → ℝ) → ℝ)
    (x : Fin R → Fin d → ℝ) (index : Fin R → ℕ) (weights : Fin R → ℝ)
    (s : ℕ) (k : Fin d) (h : ∀ r ∈ segMembers index s, x r k = 0) :
    attnOut gate_nn x index weights s k = 0 := by
  rw [attnOut]
  exact Finset.sum_eq_zero (fun r hr => by rw [h r hr, mul_zero])

lemma attnOut_singleton {R d : ℕ} (gate_nn : (Fin d → ℝ) → ℝ)
    (x : Fin R → Fin d → ℝ) (index : Fin R → ℕ) (weights : Fin R → ℝ)
    (s : ℕ) (r0 : Fin R) (h : segMembers index s = {r0}) (k : Fin d) :
    attnOut gate_nn x index weights s k = coeff gate_nn x index weights r0 * x r0 k := by
  rw [attnOut, h, Finset.sum_singleton]

lemma coeff_pos {R d : ℕ} (gate_nn : (Fin d → ℝ) → ℝ)
    (x : Fin R → Fin d → ℝ) (index : Fin R → ℕ) (weights : Fin R → ℝ) (r : Fin R)
    (hw : ∀ r2 ∈ segMembers index (index r), 0 < weights r2) :
    0 < coeff gate_nn x index weights r := by
  have hr : r ∈ segMembers index (index r) := self_mem_segMembers index r
  have hnum : 0 < unnorm gate_nn x index weights r :=
    mul_pos (hw r hr) (Real.exp_pos _)
  have hden : 0 < segSum (unnorm gate_nn x index weights) index (index r) :=
    Finset.sum_pos (fun r2 h2 => mul_pos (hw r2 h2) (Real.exp_pos _)) ⟨r, hr⟩
  have heps : (0 : ℝ) < 1e-13 := by norm_num
  exact div_pos hnum (by linarith)

lemma sigmoid_pos (z : ℝ) : 0 < sigmoid z := by
  have h : (0 : ℝ) < 1 + Real.exp (-z) := by positivity
  exact div_pos one_pos h

lemma elu_neg {z : ℝ} (h : z < 0) : elu z < 0 := by
  rw [elu, if_neg (not_lt.mpr h.le)]
  have h2 : Real.exp z < 1 := Real.exp_lt_one_iff.mpr h
  linarith

lemma batchVar_nonneg {M d : ℕ} (x : Fin M → Fin d → ℝ) (k : Fin d) :
    0 ≤ batchVar x k :=
  div_nonneg (Finset.sum_nonneg (fun _ _ => sq_nonneg _)) (Nat.cast_nonneg M)

lemma batchNorm_apply_true {d M : ℕ} (bn : BatchNorm1d d)
    (x : Fin M → Fin d → ℝ) (j : Fin M) (k : Fin d) :
    bn.apply true x j k
      = bn.weight k * ((x j k - batchMean x k) / Real.sqrt (batchVar x k + 1e-5))
          + bn.bias k := rfl

lemma batchNorm_apply_false {d M : ℕ} (bn : BatchNorm1d d)
    (x : Fin M → Fin d → ℝ) (j : Fin M) (k : Fin d) :
    bn.apply false x j k
      = bn.weight k * ((x j k - bn.running_mean k) / Real.sqrt (bn.running_var k + 1e-5))
          + bn.bias k := rfl

lemma coeff_shift {R d : ℕ} (gate1 gate2 : (Fin d → ℝ) → ℝ)
    (x : Fin R → Fin d → ℝ) (index : Fin R → ℕ) (weights : Fin R → ℝ)
    (s : ℕ) (c : ℝ)
    (hshift : ∀ r, index r = s → gate2 (x r) = gate1 (x r) + c)
    (r : Fin R) (hr : index r = s) :
    coeff gate2 x index weights r = coeff gate1 x index weights r := by
  have hmem : ∀ r2 ∈ segMembers index s,
      gateLogit gate2 x r2 = gateLogit gate1 x r2 + c :=
    fun r2 h2 => hshift r2 (mem_segMembers.mp h2)
  have hne : (segMembers index s).Nonempty := ⟨r, mem_segMembers.mpr hr⟩
  have hmax : segMax (gateLogit gate2 x) index s = segMax (gateLogit gate1 x) index s + c :=
    segMax_shift _ _ index s c hmem hne
  have hunnorm : ∀ r2 ∈ segMembers index s,
      unnorm gate2 x index weights r2 = unnorm gate1 x index weights r2 := by
    intro r2 h2
    have hidx : index r2 = s := mem_segMembers.mp h2
    unfold unnorm stableLogit
    rw [hidx, hmax, hmem r2 h2]
    have harith : gateLogit gate1 x r2 + c - (segMax (gateLogit gate1 x) index s + c)
        = gateLogit gate1 x r2 - segMax (gateLogit gate1 x) index s := by ring
    rw [harith]
  unfold coeff
  rw [hr, hunnorm r (mem_segMembers.mpr hr)]
  congr 2
  unfold segSum
  exact Finset.sum_congr rfl hunnorm

lemma coeff_congr_on {R d : ℕ} (gate_nn : (Fin d → ℝ) → ℝ)
    (xA xB : Fin R → Fin d → ℝ) (index : Fin R → ℕ) (weights : Fin R → ℝ)
    (s : ℕ) (h : ∀ r ∈ segMembers index s, xA r = xB r)
    (r : Fin R) (hr : r ∈ segMembers index s) :
    coeff gate_nn xA index weights r = coeff gate_nn xB index weights r := by
  have hidx : index r = s := mem_segMembers.mp hr
  have hg : ∀ r2 ∈ segMembers index s,
      gateLogit gate_nn xA r2 = gateLogit gate_nn xB r2 :=
    fun r2 h2 => congrArg gate_nn (h r2 h2)
  have hmax : segMax (gateLogit gate_nn xA) index s = segMax (gateLogit gate_nn xB) index s :=
    segMax_congr_on _ _ index s hg
  have hunnorm : ∀ r2 ∈ segMembers index s,
      unnorm gate_nn xA index weights r2 = unnorm gate_nn xB index weights r2 := by
    intro r2 h2
    unfold unnorm stableLogit
    rw [mem_segMembers.mp h2, hmax, hg r2 h2]
  unfold coeff
  rw [hidx, hunnorm r hr]
  congr 2
  unfold segSum
  exact Finset.sum_congr rfl hunnorm

lemma attnOut_congr_on {R d : ℕ} (gate_nn : (Fin d → ℝ) → ℝ)
    (xA xB : Fin R → Fin d → ℝ) (index : Fin R → ℕ) (weights : Fin R → ℝ)
    (s : ℕ) (h : ∀ r ∈ segMembers index s, xA r = xB r) (k : Fin d) :
    attnOut gate_nn xA index weights s k = attnOut gate_nn xB index weights s k := by
  unfold attnOut
  refine Finset.sum_congr rfl (fun r hr => ?_)
  rw [coeff_congr_on gate_nn xA xB index weights s h r hr, h r hr]

lemma message_eval_congr {N M d nd : ℕ} (L : MessageLayer d nd)
    (feaA feaB : Fin N → Fin d → ℝ) (bond : Fin M → Fin nd → ℝ)
    (self_fea_idx nbr_fea_idx : Fin M → Fin N) (j : Fin M)
    (hself : feaA (self_fea_idx j) = feaB (self_fea_idx j))
    (hnbr : feaA (nbr_fea_idx j) = feaB (nbr_fea_idx j)) :
    L.message false feaA bond self_fea_idx nbr_fea_idx j
      = L.message false feaB bond self_fea_idx nbr_fea_idx j := by
  funext k
  unfold MessageLayer.message
  simp only [batchNorm_apply_false]
  unfold totalFea
  rw [hself, hnbr]

lemma messageLayer_forward_eval_congr {N M d nd : ℕ} (L : MessageLayer d nd)
    (w : Fin N → ℝ) (feaA feaB : Fin N → Fin d → ℝ) (bond : Fin M → Fin nd → ℝ)
    (self_fea_idx nbr_fea_idx : Fin M → Fin N) (crys : Fin N → ℕ) (c0 : ℕ)
    (hnocross : ∀ j, crys (self_fea_idx j) = crys (nbr_fea_idx j))
    (hagree : ∀ i2, crys i2 = c0 → feaA i2 = feaB i2)
    (i : Fin N) (hi : crys i = c0) :
    L.forward false w feaA bond self_fea_idx nbr_fea_idx (i : ℕ)
      = L.forward false w feaB bond self_fea_idx nbr_fea_idx (i : ℕ) := by
  funext k
  unfold MessageLayer.forward
  apply attnOut_congr_on
  intro j hj
  have hval : ((self_fea_idx j : ℕ)) = (i : ℕ) :=
    (@mem_segMembers M (fun j2 => ((self_fea_idx j2 : ℕ))) (i : ℕ) j).mp hj
  have hsj : self_fea_idx j = i := Fin.ext hval
  have h1 : crys (self_fea_idx j) = c0 := by rw [hsj, hi]
  have h2 : crys (nbr_fea_idx j) = c0 := by
    rw [← hnocross j]
    exact h1
  exact message_eval_congr L feaA feaB bond self_fea_idx nbr_fea_idx j
    (hagree _ h1) (hagree _ h2)

lemma graphs_foldl_eval_congr {N M d nd : ℕ} (Ls : List (MessageLayer d nd))
    (w : Fin N → ℝ) (bond : Fin M → Fin nd → ℝ)
    (self_fea_idx nbr_fea_idx : Fin M → Fin N) (crys : Fin N → ℕ) (c0 : ℕ)
    (hnocross : ∀ j, crys (self_fea_idx j) = crys (nbr_fea_idx j)) :
    ∀ feaA feaB : Fin N → Fin d → ℝ, (∀ i, crys i = c0 → feaA i = feaB i) →
      ∀ i, crys i = c0 →
        Ls.foldl (graphStep false w bond self_fea_idx nbr_fea_idx) feaA i
          = Ls.foldl (graphStep false w bond self_fea_idx nbr_fea_idx) feaB i := by
  induction Ls with
  | nil =>
      intro feaA feaB h i hi
      exact h i hi
  | cons L Ls ih =>
      intro feaA feaB h i hi
      simp only [List.foldl_cons]
      refine ih _ _ (fun i2 hi2 => ?_) i hi
      unfold graphStep
      exact messageLayer_forward_eval_congr L w feaA feaB bond self_fea_idx nbr_fea_idx
        crys c0 hnocross h i2 hi2

/-- C1: for every feature matrix, index sequence and weight sequence, every
existing output row `s` of `GlobalAttention.forward` equals the sum, over the
rows `r` of segment `s`, of `coeffSpec r` times the row features, where
`coeffSpec` is exactly the claimed coefficient
`weights[r]*exp(g[r] - segment max) / (segment sum of the same + 1e-13)`. -/
theorem globalAttention_forward_row_formula {R d : ℕ} (A : GlobalAttention d)
    (x : Fin R → Fin d → ℝ) (index : Fin R → ℕ) (weights : Fin R → ℝ)
    (s : ℕ) (hs : s < attnOutSize index) :
    (A.forward x index weights)[s]?
      = some (fun k => ∑ r ∈ segMembers index s,
          coeffSpec A.gate_nn x index weights r * x r k) := by
  have h1 : (List.range (attnOutSize index))[s]? = some s := by
    simp [List.getElem?_range, hs]
  have h2 : (fun k => attnOut A.gate_nn x index weights s k)
      = fun k => ∑ r ∈ segMembers index s,
          coeffSpec A.gate_nn x index weights r * x r k := by
    funext k
    unfold attnOut
    exact Finset.sum_congr rfl (fun r _ => by rw [coeff_eq_coeffSpec])
  unfold GlobalAttention.forward
  rw [List.getElem?_map, h1, Option.map_some', h2]

/-- Witness for C1: a one-row batch in segment 0. -/
theorem globalAttention_forward_row_formula_witness :
    0 < attnOutSize zeroIdx1 ∧
    ((GlobalAttention.mk gateZero).forward oneRowX zeroIdx1 onesW1)[0]?
      = some (fun k => ∑ r ∈ segMembers zeroIdx1 0,
          coeffSpec (GlobalAttention.mk gateZero).gate_nn oneRowX zeroIdx1 onesW1 r
            * oneRowX r k) :=
  ⟨by decide, globalAttention_forward_row_formula (GlobalAttention.mk gateZero)
      oneRowX zeroIdx1 onesW1 0 (by decide)⟩

/-- C4: shift invariance — replacing the gate network by one whose logits on
segment `s`'s rows are all larger by exactly `c` leaves segment `s`'s pooled
output row unchanged. -/
theorem attnOut_gate_shift_invariant {R d : ℕ} (gA gB : (Fin d → ℝ) → ℝ)
    (x : Fin R → Fin d → ℝ) (index : Fin R → ℕ) (weights : Fin R → ℝ)
    (s : ℕ) (c : ℝ)
    (hshift : ∀ r, index r = s → gB (x r) = gA (x r) + c) (k : Fin d) :
    attnOut gB x index weights s k = attnOut gA x index weights s k := by
  unfold attnOut
  refine Finset.sum_congr rfl (fun r hr => ?_)
  rw [coeff_shift gA gB x index weights s c hshift r (mem_segMembers.mp hr)]

/-- Witness for C4: shifting a constant-zero gate to a constant-one gate. -/
theorem attnOut_gate_shift_invariant_witness :
    (∀ r, zeroIdx1 r = 0 → gateOne (oneRowX r) = gateZero (oneRowX r) + 1) ∧
    attnOut gateOne oneRowX zeroIdx1 onesW1 0 0
      = attnOut gateZero oneRowX zeroIdx1 onesW1 0 0 :=
  ⟨fun r _ => by norm_num [gateOne, gateZero],
   attnOut_gate_shift_invariant gateZero gateOne oneRowX zeroIdx1 onesW1 0 1
     (fun r _ => by norm_num [gateOne, gateZero]) 0⟩

/-- C8: a row with weight 0 has attention coefficient exactly 0 and therefore
contributes exactly 0 to every segment's pooled output row, whatever its
features and gate logit are. -/
theorem attnOut_zero_weight_row {R d : ℕ} (gate_nn : (Fin d → ℝ) → ℝ)
    (x : Fin R → Fin d → ℝ) (index : Fin R → ℕ) (weights : Fin R → ℝ)
    (r0 : Fin R) (h0 : weights r0 = 0) :
    coeff gate_nn x index weights r0 = 0 ∧
    ∀ (s : ℕ) (k : Fin d),
      attnOut gate_nn x index weights s k
        = ∑ r ∈ (segMembers index s).erase r0,
            coeff gate_nn x index weights r * x r k := by
  have hc : coeff gate_nn x index weights r0 = 0 := by
    unfold coeff unnorm
    rw [h0, zero_mul, zero_div]
  refine ⟨hc, fun s k => ?_⟩
  rw [attnOut]
  exact (Finset.sum_erase _ (by rw [hc, zero_mul])).symm

/-- Witness for C8: a single zero-weight row. -/
theorem attnOut_zero_weight_row_witness :
    zerosW1 0 = 0 ∧
    (coeff gateZero oneRowX zeroIdx1 zerosW1 0 = 0 ∧
      ∀ (s : ℕ) (k : Fin 1),
        attnOut gateZero oneRowX zeroIdx1 zerosW1 s k
          = ∑ r ∈ (segMembers zeroIdx1 s).erase 0,
              coeff gateZero oneRowX zeroIdx1 zerosW1 r * oneRowX r k) :=
  ⟨rfl, attnOut_zero_weight_row gateZero oneRowX zeroIdx1 zerosW1 0 rfl⟩

/-- C9: a segment id below the output bound that has no member rows still
yields an output row, which is exactly 0 — in particular its magnitude is far
below the `1/ε` scale — with no division fault. -/
theorem attnOut_empty_segment_row {R d : ℕ} (gate_nn : (Fin d → ℝ) → ℝ)
    (x : Fin R → Fin d → ℝ) (index : Fin R → ℕ) (weights : Fin R → ℝ)
    (s : ℕ) (_hs : s < attnOutSize index) (hemp : ∀ r, index r ≠ s) (k : Fin d) :
    attnOut gate_nn x index weights s k = 0 ∧
    |attnOut gate_nn x index weights s k| ≤ 1e13 := by
  have h0 := attnOut_eq_zero_of_empty gate_nn x index weights s k hemp
  exact ⟨h0, by rw [h0]; norm_num⟩

/-- Witness for C9: one row in segment 1 leaves segment 0 empty but in range. -/
theorem attnOut_empty_segment_row_witness :
    (0 < attnOutSize oneIdx1 ∧ ∀ r, oneIdx1 r ≠ 0) ∧
    (attnOut gateZero oneRowX oneIdx1 onesW1 0 0 = 0 ∧
      |attnOut gateZero oneRowX oneIdx1 onesW1 0 0| ≤ 1e13) :=
  ⟨⟨by decide, by decide⟩,
   attnOut_empty_segment_row gateZero oneRowX oneIdx1 onesW1 0 (by decide) (by decide) 0⟩

/-- C10: for a nonempty input, `GlobalAttention.forward` has exactly
`(largest occurring segment id) + 1` rows; an in-range segment id with no
member rows yields the zero row, and ids at or past the bound yield no row. -/
theorem globalAttention_forward_shape {R d : ℕ} (A : GlobalAttention d)
    (x : Fin R → Fin d → ℝ) (index : Fin R → ℕ) (weights : Fin R → ℝ)
    (hR : 0 < R) :
    (A.forward x index weights).length = univ.sup index + 1 ∧
    (∀ s : ℕ, s < attnOutSize index → (∀ r, index r ≠ s) →
      (A.forward x index weights)[s]? = some (fun _ => 0)) ∧
    ∀ s : ℕ, attnOutSize index ≤ s → (A.forward x index weights)[s]? = none := by
  have hsize : attnOutSize index = univ.sup index + 1 := by
    unfold attnOutSize
    rw [if_neg hR.ne']
  have hlen : (A.forward x index weights).length = attnOutSize index := by
    unfold GlobalAttention.forward
    rw [List.length_map, List.length_range]
  refine ⟨hlen.trans hsize, fun s hlt hemp => ?_, fun s hge => ?_⟩
  · have h1 : (List.range (attnOutSize index))[s]? = some s := by
      simp [List.getElem?_range, hlt]
    unfold GlobalAttention.forward
    rw [List.getElem?_map, h1, Option.map_some']
    congr 1
    funext k
    exact attnOut_eq_zero_of_empty A.gate_nn x index weights s k hemp
  · exact List.getElem?_eq_none (by rw [hlen]; exact hge)

/-- Witness for C10: a one-row batch. -/
theorem globalAttention_forward_shape_witness :
    0 < 1 ∧
    (((GlobalAttention.mk gateZero).forward oneRowX zeroIdx1 onesW1).length
        = univ.sup zeroIdx1 + 1 ∧
      (∀ s : ℕ, s < attnOutSize zeroIdx1 → (∀ r, zeroIdx1 r ≠ s) →
        ((GlobalAttention.mk gateZero).forward oneRowX zeroIdx1 onesW1)[s]?
          = some (fun _ => 0)) ∧
      ∀ s : ℕ, attnOutSize zeroIdx1 ≤ s →
        ((GlobalAttention.mk gateZero).forward oneRowX zeroIdx1 onesW1)[s]? = none) :=
  ⟨by decide,
   globalAttention_forward_shape (GlobalAttention.mk gateZero) oneRowX zeroIdx1 onesW1
     (by decide)⟩

/-- C3: a `CompositionNet` constructed with `output_nn = None` does not return
the pooled crystal features: because `__init__` only assigns the attribute for
a truthy head, the `if self.output_nn:` test in `forward` raises
`AttributeError` (modelled as `Except.error PyErr.attrError`), for every input.
The claim describes the documented intent; the code is the slip. -/
theorem compositionNet_no_head_raises {din d nd dout N M : ℕ}
    (emb : Linear din d) (graphs : List (MessageLayer d nd)) (pool : GlobalAttention d)
    (training : Bool) (atom_weights : Fin N → ℝ) (orig_atom_fea : Fin N → Fin din → ℝ)
    (nbr_fea : Fin M → Fin nd → ℝ) (self_fea_idx nbr_fea_idx : Fin M → Fin N)
    (crystal_atom_idx : Fin N → ℕ) :
    CompositionNet.forward
        ⟨emb, graphs, pool, (none : Option ((Fin d → ℝ) → Fin dout → ℝ))⟩
        training atom_weights orig_atom_fea nbr_fea self_fea_idx nbr_fea_idx
        crystal_atom_idx
      = Except.error PyErr.attrError := rfl

/-- C5 counterexample: in a nonempty segment whose only member has weight 0,
the attention coefficients sum to 0, not to 1 within any sensible tolerance. -/
theorem coeff_sum_not_one_counterexample :
    (∑ r ∈ segMembers zeroIdx1 0, coeff gateZero oneRowX zeroIdx1 zerosW1 r) = 0 ∧
    ¬ |(∑ r ∈ segMembers zeroIdx1 0, coeff gateZero oneRowX zeroIdx1 zerosW1 r) - 1|
        ≤ 1e-6 := by
  have h : ∀ r ∈ segMembers zeroIdx1 0, coeff gateZero oneRowX zeroIdx1 zerosW1 r = 0 := by
    intro r _
    unfold coeff unnorm zerosW1
    rw [zero_mul, zero_div]
  have hsum : (∑ r ∈ segMembers zeroIdx1 0, coeff gateZero oneRowX zeroIdx1 zerosW1 r) = 0 :=
    Finset.sum_eq_zero h
  refine ⟨hsum, ?_⟩
  rw [hsum]
  norm_num

/-- C5 amended: for every nonempty segment the attention coefficients sum to
`S / (S + 1e-13)` where `S` is the segment's unnormalized mass
`sum(weights * exp(stable logit))`; whenever `S ≥ 1e-7` this is within `1e-6`
of 1, but when every member weight is 0 the sum is 0 (see the
counterexample), so the sum is not 1 for all inputs. -/
theorem coeff_sum_eq_mass_ratio {R d : ℕ} (gate_nn : (Fin d → ℝ) → ℝ)
    (x : Fin R → Fin d → ℝ) (index : Fin R → ℕ) (weights : Fin R → ℝ) (s : ℕ)
    (_hne : (segMembers index s).Nonempty) :
    (∑ r ∈ segMembers index s, coeff gate_nn x index weights r)
      = segSum (unnorm gate_nn x index weights) index s
          / (segSum (unnorm gate_nn x index weights) index s + 1e-13) ∧
    (1e-7 ≤ segSum (unnorm gate_nn x index weights) index s →
      |(∑ r ∈ segMembers index s, coeff gate_nn x index weights r) - 1| ≤ 1e-6) := by
  have hcoeff : ∀ r ∈ segMembers index s,
      coeff gate_nn x index weights r
        = unnorm gate_nn x index weights r
            / (segSum (unnorm gate_nn x index weights) index s + 1e-13) := by
    intro r hr
    unfold coeff
    rw [mem_segMembers.mp hr]
  have h1 : (∑ r ∈ segMembers index s, coeff gate_nn x index weights r)
      = segSum (unnorm gate_nn x index weights) index s
          / (segSum (unnorm gate_nn x index weights) index s + 1e-13) := by
    rw [Finset.sum_congr rfl hcoeff, ← Finset.sum_div]
    rfl
  refine ⟨h1, fun hS => ?_⟩
  rw [h1]
  have hT : (0 : ℝ) < segSum (unnorm gate_nn x index weights) index s + 1e-13 := by
    linarith
  have hle : segSum (unnorm gate_nn x index weights) index s
      / (segSum (unnorm gate_nn x index weights) index s + 1e-13) ≤ 1 :=
    (div_le_one hT).mpr (by linarith)
  have hge : 1 - 1e-6 ≤ segSum (unnorm gate_nn x index weights) index s
      / (segSum (unnorm gate_nn x index weights) index s + 1e-13) := by
    rw [le_div_iff₀ hT]
    nlinarith
  rw [abs_le]
  constructor <;> linarith

/-- Witness for the amended C5: a one-row segment with unit weight (its
unnormalized mass is `exp 0 = 1`, far above the threshold). -/
theorem coeff_sum_eq_mass_ratio_witness :
    (segMembers zeroIdx1 0).Nonempty ∧
    ((∑ r ∈ segMembers zeroIdx1 0, coeff gateZero oneRowX zeroIdx1 onesW1 r)
        = segSum (unnorm gateZero oneRowX zeroIdx1 onesW1) zeroIdx1 0
            / (segSum (unnorm gateZero oneRowX zeroIdx1 onesW1) zeroIdx1 0 + 1e-13) ∧
      (1e-7 ≤ segSum (unnorm gateZero oneRowX zeroIdx1 onesW1) zeroIdx1 0 →
        |(∑ r ∈ segMembers zeroIdx1 0, coeff gateZero oneRowX zeroIdx1 onesW1 r) - 1|
          ≤ 1e-6)) :=
  ⟨by decide, coeff_sum_eq_mass_ratio gateZero oneRowX zeroIdx1 onesW1 0 (by decide)⟩

/-- C2 counterexample: two atoms but a single bond owned by atom 0 — the
pooled output of `MessageLayer.forward` has 1 row, not `N = 2` rows, because
`scatter_add` sizes its output from the largest occurring index. -/
theorem messageLayer_row_count_counterexample :
    msgOutSize (fun _ : Fin 1 => (0 : Fin 2)) = 1 ∧ (1 : ℕ) ≠ 2 :=
  ⟨by decide, by decide⟩

/-- C2 amended: `MessageLayer.forward` gathers neighbour weights and self and
neighbour features, concatenates `[self, neighbour, bond]`, forms
`sigmoid(bn(linear(.)))` times `elu(bn(linear(.)))` messages and pools them by
`self_fea_idx` with weights `atom_weights[nbr_fea_idx]`; the pooled output has
`N` rows of width `atom_fea_len` provided the largest self index is `N - 1`
(for instance when every atom owns a bond). -/
theorem messageLayer_forward_spec {N M d nd : ℕ} (L : MessageLayer d nd)
    (training : Bool) (atom_weights : Fin N → ℝ) (atom_in_fea : Fin N → Fin d → ℝ)
    (bond_nbr_fea : Fin M → Fin nd → ℝ) (self_fea_idx nbr_fea_idx : Fin M → Fin N)
    (hM : 0 < M) (hmax : univ.sup (fun j => ((self_fea_idx j : ℕ))) = N - 1) :
    msgOutSize self_fea_idx = N ∧
    ∀ (s : ℕ) (k : Fin d),
      L.forward training atom_weights atom_in_fea bond_nbr_fea self_fea_idx nbr_fea_idx s k
        = attnOut L.pooling.gate_nn
            (fun j k2 => sigmoid (L.filter_bn.apply training
                (fun j2 => L.filter_msg.apply
                  (concat3 (atom_in_fea (self_fea_idx j2)) (atom_in_fea (nbr_fea_idx j2))
                    (bond_nbr_fea j2))) j k2)
              * elu (L.core_bn.apply training
                (fun j2 => L.core_msg.apply
                  (concat3 (atom_in_fea (self_fea_idx j2)) (atom_in_fea (nbr_fea_idx j2))
                    (bond_nbr_fea j2))) j k2))
            (fun j => (self_fea_idx j : ℕ)) (fun j => atom_weights (nbr_fea_idx j)) s k := by
  constructor
  · have hN : 0 < N := (self_fea_idx ⟨0, hM⟩).pos
    unfold msgOutSize attnOutSize
    rw [if_neg hM.ne', hmax]
    omega
  · intro s k
    rfl

/-- Witness for the amended C2: one atom, one self-loop bond. -/
theorem messageLayer_forward_spec_witness :
    (0 < 1 ∧ univ.sup (fun j : Fin 1 => ((witSelf1 j : ℕ))) = 1 - 1) ∧
    (msgOutSize witSelf1 = 1 ∧
      ∀ (s : ℕ) (k : Fin 1),
        (trivialLayer 1 1).forward true onesW1 oneRowX witBond1 witSelf1 witSelf1 s k
          = attnOut (trivialLayer 1 1).pooling.gate_nn
              (fun j k2 => sigmoid ((trivialLayer 1 1).filter_bn.apply true
                  (fun j2 => (trivialLayer 1 1).filter_msg.apply
                    (concat3 (oneRowX (witSelf1 j2)) (oneRowX (witSelf1 j2))
                      (witBond1 j2))) j k2)
                * elu ((trivialLayer 1 1).core_bn.apply true
                  (fun j2 => (trivialLayer 1 1).core_msg.apply
                    (concat3 (oneRowX (witSelf1 j2)) (oneRowX (witSelf1 j2))
                      (witBond1 j2))) j k2))
              (fun j => (witSelf1 j : ℕ)) (fun j => onesW1 (witSelf1 j)) s k) :=
  ⟨⟨by decide, by decide⟩,
   messageLayer_forward_spec (trivialLayer 1 1) true onesW1 oneRowX witBond1
     witSelf1 witSelf1 (by decide) (by decide)⟩

/-- C7: with a constant gate (all logits equal in the segment) GlobalAttention
does reduce to coefficients `weights[r] / (sum of weights + ε)` — here both
coefficients are `1/(2+1e-13)` and the row pools to `5/(2+1e-13)`, the
ε-guarded weighted mean of 2 and 3 — but `WeightedMeanPooling.forward`
returns `6`, because the source computes per-segment products
(`scatter_mul`) instead of sums, contradicting both its own docstring
("mean pooling") and the claimed numerical equivalence. -/
theorem weightedMeanPooling_not_weighted_mean :
    attnOut gateZero twoRowX zeroIdx2 onesW2 0 0 = 5 / (2 + 1e-13) ∧
    WeightedMeanPooling.forward twoRowX zeroIdx2 onesW2 0 0 = 6 ∧
    attnOut gateZero twoRowX zeroIdx2 onesW2 0 0
      ≠ WeightedMeanPooling.forward twoRowX zeroIdx2 onesW2 0 0 := by
  have hmemu : segMembers zeroIdx2 0 = (univ : Finset (Fin 2)) := by decide
  have hne : (segMembers zeroIdx2 0).Nonempty := by decide
  have hmax : segMax (gateLogit gateZero twoRowX) zeroIdx2 0 = 0 := by
    rw [segMax_of_nonempty _ _ _ hne]
    have hconst : ∀ r ∈ segMembers zeroIdx2 0, gateLogit gateZero twoRowX r = 0 :=
      fun r _ => rfl
    rw [Finset.sup'_congr hne rfl hconst]
    exact Finset.sup'_const hne 0
  have hunnorm : ∀ r : Fin 2, unnorm gateZero twoRowX zeroIdx2 onesW2 r = 1 := by
    intro r
    unfold unnorm stableLogit
    have hidx : zeroIdx2 r = 0 := rfl
    rw [hidx, hmax]
    have hg : gateLogit gateZero twoRowX r = 0 := rfl
    rw [hg]
    norm_num [onesW2, Real.exp_zero]
  have hseg : segSum (unnorm gateZero twoRowX zeroIdx2 onesW2) zeroIdx2 0 = 2 := by
    unfold segSum
    rw [hmemu, Fin.sum_univ_two, hunnorm 0, hunnorm 1]
    norm_num
  have hcoeff : ∀ r : Fin 2, coeff gateZero twoRowX zeroIdx2 onesW2 r = 1 / (2 + 1e-13) := by
    intro r
    unfold coeff
    have hidx : zeroIdx2 r = 0 := rfl
    rw [hidx, hseg, hunnorm r]
  have hx0 : twoRowX 0 0 = 2 := by norm_num [twoRowX]
  have hx1 : twoRowX 1 0 = 3 := by norm_num [twoRowX]
  have h1 : attnOut gateZero twoRowX zeroIdx2 onesW2 0 0 = 5 / (2 + 1e-13) := by
    unfold attnOut
    rw [hmemu, Fin.sum_univ_two, hcoeff 0, hcoeff 1, hx0, hx1]
    have hd : (2 : ℝ) + 1e-13 ≠ 0 := by norm_num
    field_simp
    ring
  have h2 : WeightedMeanPooling.forward twoRowX zeroIdx2 onesW2 0 0 = 6 := by
    unfold WeightedMeanPooling.forward
    rw [hmemu, Fin.prod_univ_two, Fin.prod_univ_two]
    rw [hx0, hx1]
    norm_num [onesW2]
  refine ⟨h1, h2, ?_⟩
  rw [h1, h2]
  norm_num

lemma elu_zero : elu 0 = 0 := by
  rw [elu, if_neg (lt_irrefl 0), Real.exp_zero, sub_self]

lemma cexEmbed_apply (v : Fin 1 → ℝ) (k : Fin 1) : cexEmbedding.apply v k = v 0 := by
  simp [cexEmbedding, Linear.apply, Fin.sum_univ_one]

lemma cexCore_apply (v : Fin 3 → ℝ) (k : Fin 1) : cexCoreLinear.apply v k = v 0 := by
  simp [cexCoreLinear, Linear.apply, Fin.sum_univ_three]

lemma concat3_head (a b c : Fin 1 → ℝ) : concat3 a b c 0 = a 0 := rfl

lemma totalFea_head (fea : Fin 2 → Fin 1 → ℝ) (j : Fin 2) :
    totalFea fea cexBond cexSelf cexNbr j 0 = fea j 0 := by
  unfold totalFea
  rw [concat3_head]
  rfl

lemma idBN_true_val {M : ℕ} (x : Fin M → Fin 1 → ℝ) (j : Fin M) (k : Fin 1) :
    (idBatchNorm 1).apply true x j k
      = (x j k - batchMean x k) / Real.sqrt (batchVar x k + 1e-5) := by
  rw [batchNorm_apply_true]
  show 1 * _ + 0 = _
  rw [one_mul, add_zero]

lemma cex_corePreA (j : Fin 2) (k : Fin 1) :
    cexLayer.core_msg.apply
        (totalFea (fun i => cexEmbedding.apply (cexOrigA i)) cexBond cexSelf cexNbr j) k
      = 0 := by
  show cexCoreLinear.apply _ k = 0
  rw [cexCore_apply, totalFea_head, cexEmbed_apply]
  rfl

lemma cex_msgA_zero (j : Fin 2) (k : Fin 1) :
    cexLayer.message true (fun i => cexEmbedding.apply (cexOrigA i))
        cexBond cexSelf cexNbr j k = 0 := by
  unfold MessageLayer.message
  have hbn : cexLayer.core_bn.apply true
      (fun j2 => cexLayer.core_msg.apply
        (totalFea (fun i => cexEmbedding.apply (cexOrigA i)) cexBond cexSelf cexNbr j2))
      j k = 0 := by
    show (idBatchNorm 1).apply true _ j k = 0
    rw [idBN_true_val]
    have hmean : batchMean
        (fun j2 => cexLayer.core_msg.apply
          (totalFea (fun i => cexEmbedding.apply (cexOrigA i)) cexBond cexSelf cexNbr j2))
        k = 0 := by
      unfold batchMean
      rw [Fin.sum_univ_two]
      dsimp only
      rw [cex_corePreA 0 k, cex_corePreA 1 k]
      norm_num
    rw [cex_corePreA j k, hmean, sub_self, zero_div]
  rw [hbn, elu_zero, mul_zero]

lemma cex_corePreB (j : Fin 2) (k : Fin 1) :
    cexLayer.core_msg.apply
        (totalFea (fun i => cexEmbedding.apply (cexOrigB i)) cexBond cexSelf cexNbr j) k
      = if (j : ℕ) = 0 then 0 else 1 := by
  show cexCoreLinear.apply _ k = _
  rw [cexCore_apply, totalFea_head, cexEmbed_apply]
  rfl

lemma cex_msgB_neg (k : Fin 1) :
    cexLayer.message true (fun i => cexEmbedding.apply (cexOrigB i))
        cexBond cexSelf cexNbr 0 k < 0 := by
  unfold MessageLayer.message
  have hbn : cexLayer.core_bn.apply true
      (fun j2 => cexLayer.core_msg.apply
        (totalFea (fun i => cexEmbedding.apply (cexOrigB i)) cexBond cexSelf cexNbr j2))
      0 k < 0 := by
    show (idBatchNorm 1).apply true _ 0 k < 0
    rw [idBN_true_val]
    have hmean : batchMean
        (fun j2 => cexLayer.core_msg.apply
          (totalFea (fun i => cexEmbedding.apply (cexOrigB i)) cexBond cexSelf cexNbr j2))
        k = 1 / 2 := by
      unfold batchMean
      rw [Fin.sum_univ_two]
      dsimp only
      rw [cex_corePreB 0 k, cex_corePreB 1 k]
      norm_num
    rw [cex_corePreB 0 k, hmean]
    apply div_neg_of_neg_of_pos
    · norm_num
    · apply Real.sqrt_pos.mpr
      have hv := batchVar_nonneg
        (fun j2 => cexLayer.core_msg.apply
          (totalFea (fun i => cexEmbedding.apply (cexOrigB i)) cexBond cexSelf cexNbr j2)) k
      linarith
  exact mul_neg_of_pos_of_neg (sigmoid_pos _) (elu_neg hbn)

/-- C6 counterexample: a batch of two crystals (one atom and one self-loop
bond each, so no cross-crystal bond indices) run in training mode.  Batch
normalization computes its statistics over all bonds of the batch, so
perturbing only crystal 2's atom feature (from `cexOrigA` to `cexOrigB`)
changes crystal 1's output row of `CompositionNet.forward`: it is 0 in the
first run and strictly negative in the second. -/
theorem compositionNet_isolation_training_counterexample :
    Except.map (fun g => g 0 0)
        (cexNet.forward true cexW cexOrigA cexBond cexSelf cexNbr cexCrys)
      ≠ Except.map (fun g => g 0 0)
        (cexNet.forward true cexW cexOrigB cexBond cexSelf cexNbr cexCrys) := by
  have hA : Except.map (fun g => g 0 0)
      (cexNet.forward true cexW cexOrigA cexBond cexSelf cexNbr cexCrys)
      = Except.ok (cexNet.crysFea true cexW cexOrigA cexBond cexSelf cexNbr cexCrys 0 0) :=
    rfl
  have hB : Except.map (fun g => g 0 0)
      (cexNet.forward true cexW cexOrigB cexBond cexSelf cexNbr cexCrys)
      = Except.ok (cexNet.crysFea true cexW cexOrigB cexBond cexSelf cexNbr cexCrys 0 0) :=
    rfl
  have hA0 : cexNet.crysFea true cexW cexOrigA cexBond cexSelf cexNbr cexCrys 0 0 = 0 := by
    unfold CompositionNet.crysFea
    apply attnOut_eq_zero_of_rows_zero
    intro r _
    show cexLayer.forward true cexW (fun i => cexEmbedding.apply (cexOrigA i))
        cexBond cexSelf cexNbr (r : ℕ) 0 = 0
    unfold MessageLayer.forward
    apply attnOut_eq_zero_of_rows_zero
    intro j _
    exact cex_msgA_zero j 0
  have hBneg : cexNet.crysFea true cexW cexOrigB cexBond cexSelf cexNbr cexCrys 0 0 < 0 := by
    unfold CompositionNet.crysFea
    have hmem : segMembers cexCrys 0 = {0} := by decide
    rw [attnOut_singleton _ _ _ _ _ _ hmem]
    apply mul_neg_of_pos_of_neg
    · apply coeff_pos
      intro r2 _
      norm_num [cexW]
    · show cexLayer.forward true cexW (fun i => cexEmbedding.apply (cexOrigB i))
          cexBond cexSelf cexNbr ((0 : Fin 2) : ℕ) 0 < 0
      unfold MessageLayer.forward
      have hmem2 : segMembers (fun j => ((cexSelf j : ℕ))) ((0 : Fin 2) : ℕ) = {0} := by
        decide
      rw [attnOut_singleton _ _ _ _ _ _ hmem2]
      apply mul_neg_of_pos_of_neg
      · apply coeff_pos
        intro r2 _
        norm_num [cexW]
      · exact cex_msgB_neg 0
  rw [hA, hB]
  simp only [ne_eq, Except.ok.injEq]
  rw [hA0]
  exact ne_of_gt hBneg

/-- C6 amended: crystal isolation holds in evaluation mode.  With running
batch-norm statistics every per-bond computation is local to its bond, so for
any batch whose bonds never cross crystals, changing only the atom features
outside crystal `c0` leaves crystal `c0`'s output row of
`CompositionNet.forward` unchanged.  In training mode the batch statistics
couple the crystals and the property fails (see the counterexample). -/
theorem compositionNet_crystal_isolation_eval {din d nd dout N M : ℕ}
    (net : CompositionNet din d nd dout) (atom_weights : Fin N → ℝ)
    (origA origB : Fin N → Fin din → ℝ) (nbr_fea : Fin M → Fin nd → ℝ)
    (self_fea_idx nbr_fea_idx : Fin M → Fin N) (crystal_atom_idx : Fin N → ℕ) (c0 : ℕ)
    (hnocross : ∀ j, crystal_atom_idx (self_fea_idx j) = crystal_atom_idx (nbr_fea_idx j))
    (hagree : ∀ i, crystal_atom_idx i = c0 → origA i = origB i)
    (f : (Fin d → ℝ) → Fin dout → ℝ) (hout : net.output_nn = some f) :
    ∃ gA gB,
      net.forward false atom_weights origA nbr_fea self_fea_idx nbr_fea_idx crystal_atom_idx
        = Except.ok gA ∧
      net.forward false atom_weights origB nbr_fea self_fea_idx nbr_fea_idx crystal_atom_idx
        = Except.ok gB ∧
      gA c0 = gB c0 := by
  have hcrys :
      net.crysFea false atom_weights origA nbr_fea self_fea_idx nbr_fea_idx crystal_atom_idx c0
        = net.crysFea false atom_weights origB nbr_fea self_fea_idx nbr_fea_idx
            crystal_atom_idx c0 := by
    funext k
    unfold CompositionNet.crysFea
    apply attnOut_congr_on
    intro i hi
    refine graphs_foldl_eval_congr net.graphs atom_weights nbr_fea self_fea_idx nbr_fea_idx
      crystal_atom_idx c0 hnocross _ _ (fun i2 hi2 => ?_) i (mem_segMembers.mp hi)
    show net.embedding.apply (origA i2) = net.embedding.apply (origB i2)
    rw [hagree i2 hi2]
  refine ⟨fun s => f (net.crysFea false atom_weights origA nbr_fea self_fea_idx nbr_fea_idx
            crystal_atom_idx s),
          fun s => f (net.crysFea false atom_weights origB nbr_fea self_fea_idx nbr_fea_idx
            crystal_atom_idx s),
          ?_, ?_, ?_⟩
  · unfold CompositionNet.forward
    rw [hout]
  · unfold CompositionNet.forward
    rw [hout]
  · exact congrArg f hcrys

/-- Witness for the amended C6: the two-crystal batch in evaluation mode with
an unperturbed second run. -/
theorem compositionNet_crystal_isolation_eval_witness :
    ((∀ j, cexCrys (cexSelf j) = cexCrys (cexNbr j)) ∧
      (∀ i, cexCrys i = 0 → cexOrigA i = cexOrigA i) ∧
      cexNet.output_nn = some (fun row => row)) ∧
    (∃ gA gB,
      cexNet.forward false cexW cexOrigA cexBond cexSelf cexNbr cexCrys = Except.ok gA ∧
      cexNet.forward false cexW cexOrigA cexBond cexSelf cexNbr cexCrys = Except.ok gB ∧
      gA 0 = gB 0) :=
  ⟨⟨fun _ => rfl, fun _ _ => rfl, rfl⟩,
   compositionNet_crystal_isolation_eval cexNet cexW cexOrigA cexOrigA cexBond cexSelf
     cexNbr cexCrys 0 (fun _ => rfl) (fun _ _ => rfl) (fun row => row) rfl⟩

end Sampnn
